import Mathlib

/-!
Verification of the VideoGen text-segmentation core.

This file shallowly embeds the text-processing functions of
`src/videogen/script_utils.py`, the plan record of
`src/videogen/openai_utils.py` and the assembler of
`src/videogen/project.py`, and proves/refutes the frozen claims about
them.  Python strings are modelled as `List Char`; the Unicode-aware
pieces (`str.lower`, the `\w` word class, `\s` whitespace) are modelled
over the alphabet the program works with (ASCII plus the Turkish letters
named in its regex); `IndexError` is modelled by `Option`.
-/

namespace VideoGen

/-- Whitespace characters recognised by Python's `str.strip` and `\s`
(the six ASCII whitespace characters). -/
def isSpace (c : Char) : Bool :=
  c == ' ' || c == '\t' || c == '\n' || c == '\r' || c == '\u000B' || c == '\u000C'

/-- Word characters of the regex `[\wçğıöşüÇĞİÖŞÜ]` over the modelled
alphabet: ASCII letters, digits, underscore, and the Turkish letters the
regex lists explicitly. -/
def isWordChar (c : Char) : Bool :=
  (65 ≤ c.toNat && c.toNat ≤ 90) || (97 ≤ c.toNat && c.toNat ≤ 122) ||
  (48 ≤ c.toNat && c.toNat ≤ 57) || c == '_' ||
  c == 'ç' || c == 'ğ' || c == 'ı' || c == 'ö' || c == 'ş' || c == 'ü' ||
  c == 'Ç' || c == 'Ğ' || c == 'İ' || c == 'Ö' || c == 'Ş' || c == 'Ü'

/-- Uppercase letters of the modelled alphabet: ASCII `A`-`Z` and the
uppercase Turkish letters appearing in the program's regex. -/
def isUpperChar (c : Char) : Bool :=
  (65 ≤ c.toNat && c.toNat ≤ 90) ||
  c == 'Ç' || c == 'Ğ' || c == 'İ' || c == 'Ö' || c == 'Ş' || c == 'Ü'

/-- Python `str.lower` on one character of the modelled alphabet.
`'İ'` (U+0130) lowercases to `'i'` followed by a combining dot above,
as CPython does; ASCII uppercase shifts by 32; the other Turkish
uppercase letters map to their lowercase forms. -/
def pyLowerChar (c : Char) : List Char :=
  if c == 'İ' then ['i', '\u0307']
  else if 65 ≤ c.toNat && c.toNat ≤ 90 then [Char.ofNat (c.toNat + 32)]
  else if c == 'Ç' then ['ç']
  else if c == 'Ğ' then ['ğ']
  else if c == 'Ö' then ['ö']
  else if c == 'Ş' then ['ş']
  else if c == 'Ü' then ['ü']
  else [c]

/-- Python `text.lower()` over the modelled alphabet. -/
def pyLower : List Char → List Char
  | [] => []
  | c :: rest => pyLowerChar c ++ pyLower rest

/-- Python `text.strip()`: drop leading and trailing whitespace. -/
def stripChars (l : List Char) : List Char :=
  ((l.dropWhile isSpace).reverse.dropWhile isSpace).reverse

/-- Replacement of each maximal whitespace run by a single space,
modelling `re.sub(r"\s+", " ", s)`.  The flag records whether the
previous character was part of a whitespace run. -/
def collapseAux : Bool → List Char → List Char
  | _, [] => []
  | inRun, c :: rest =>
    if isSpace c then
      if inRun then collapseAux true rest else ' ' :: collapseAux true rest
    else c :: collapseAux false rest

/-- Embedding of `_clean_sentence`:
`re.sub(r"\s+", " ", text.strip().replace("\n", " "))`. -/
def _clean_sentence (text : List Char) : List Char :=
  collapseAux false ((stripChars text).map (fun c => if c == '\n' then ' ' else c))

/-- Python `str.find` returning the first index of `c` in `l`
(`none` models the `-1` "not found" result). -/
def strFind (l : List Char) (c : Char) : Option Nat :=
  match l with
  | [] => none
  | a :: rest => if a == c then some 0 else (strFind rest c).map (· + 1)

/-- Embedding of `_extract_summary`: try the delimiters `.`, `!`, `?`
in this order; on the first one present, return the prefix up to and
including it; with none present return the first 200 characters. -/
def _extract_summary (text : List Char) : List Char :=
  let cleaned := _clean_sentence text
  match strFind cleaned '.' with
  | some index => cleaned.take (index + 1)
  | none =>
    match strFind cleaned '!' with
    | some index => cleaned.take (index + 1)
    | none =>
      match strFind cleaned '?' with
      | some index => cleaned.take (index + 1)
      | none => cleaned.take 200

/-- Maximal runs of characters satisfying `p`, with `cur` the (reversed)
run in progress.  `runsAux p [] l` models `re.findall` of `p`-runs,
and with `p = not whitespace` models `str.split()`. -/
def runsAux (p : Char → Bool) (cur : List Char) : List Char → List (List Char)
  | [] => if cur.isEmpty then [] else [cur.reverse]
  | c :: rest =>
    if p c then runsAux p (c :: cur) rest
    else if cur.isEmpty then runsAux p [] rest
    else cur.reverse :: runsAux p [] rest

/-- Embedding of `re.findall(r"[\wçğıöşüÇĞİÖŞÜ]+", text)`: the maximal
word-character runs of `text`, in order. -/
def findWords (text : List Char) : List (List Char) :=
  runsAux isWordChar [] text

/-- Embedding of `str.split()`: maximal non-whitespace runs. -/
def pySplit (text : List Char) : List (List Char) :=
  runsAux (fun c => !(isSpace c)) [] text

/-- Stopword set of `script_utils._STOPWORDS`, verbatim. -/
def _STOPWORDS : List (List Char) :=
  ["and".data, "the".data, "for".data, "with".data, "that".data, "from".data,
   "this".data, "have".data, "your".data, "into".data, "about".data, "when".data,
   "where".data, "while".data, "then".data, "over".data, "such".data, "very".data,
   "just".data, "because".data, "however".data, "also".data, "like".data, "but".data,
   "are".data, "was".data, "were".data, "you".data, "they".data, "them".data,
   "our".data, "their".data, "not".data, "bir".data, "ile".data, "ama".data,
   "gibi".data, "ve".data, "de".data, "da".data, "bu".data, "olan".data,
   "kadar".data, "çok".data, "daha".data, "için".data, "icin".data, "henüz".data]

/-- Embedding of `_keyword_candidates`: word tokens of the lowercased
text, keeping those longer than 2 characters and not stopwords. -/
def _keyword_candidates (text : List Char) : List (List Char) :=
  (findWords (pyLower text)).filter (fun w => 2 < w.length && !(_STOPWORDS.contains w))

/-- First-seen deduplication, modelling the key insertion order of
`collections.Counter` (a dict preserving first-insertion order). -/
def firstSeenAux (seen : List (List Char)) : List (List Char) → List (List Char)
  | [] => []
  | w :: rest =>
    if w ∈ seen then firstSeenAux seen rest
    else w :: firstSeenAux (w :: seen) rest

/-- Keys of `Counter(l)` in insertion (first-appearance) order. -/
def counterKeys (l : List (List Char)) : List (List Char) :=
  firstSeenAux [] l

/-- Items of `Counter(l)`: each key paired with its multiplicity. -/
def countPairs (l : List (List Char)) : List (List Char × Nat) :=
  (counterKeys l).map (fun w => (w, l.count w))

/-- Stable descending insertion by count: the new pair goes in front of
the first pair with a smaller-or-equal count, so that among equal counts
earlier-inserted pairs stay first — the tie behaviour of
`heapq.nlargest` and hence of `Counter.most_common`. -/
def insertDesc (p : List Char × Nat) : List (List Char × Nat) → List (List Char × Nat)
  | [] => [p]
  | q :: rest => if q.2 ≤ p.2 then p :: q :: rest else q :: insertDesc p rest

/-- Stable sort by descending count (insertion sort). -/
def sortByCountDesc : List (List Char × Nat) → List (List Char × Nat)
  | [] => []
  | p :: rest => insertDesc p (sortByCountDesc rest)

/-- Embedding of `Counter(l).most_common(n)`. -/
def most_common (l : List (List Char)) (n : Nat) : List (List Char × Nat) :=
  (sortByCountDesc (countPairs l)).take n

/-- Embedding of `_extract_keywords` (default `limit = 5`). -/
def _extract_keywords (text : List Char) (limit : Nat := 5) : List (List Char) :=
  let candidates := _keyword_candidates text
  if candidates.isEmpty then []
  else (most_common candidates limit).map Prod.fst

/-- Label `f"Segment {n}"`. -/
def segLabel (n : Nat) : List Char :=
  ("Segment " ++ toString n).data

/-- Embedding of `_title_from_text`: first six whitespace-separated
tokens of the cleaned text joined by single spaces, falling back to
`"Segment {n}"` when empty. -/
def _title_from_text (text : List Char) (fallback_index : Nat) : List Char :=
  let cleaned := _clean_sentence text
  if cleaned.isEmpty then segLabel fallback_index
  else
    let words := pySplit cleaned
    let snippet := stripChars (List.intercalate [' '] (words.take 6))
    if snippet.isEmpty then segLabel fallback_index else snippet

/-- Splitter state for `re.split(r"\n{2,}", s)`: `cur` is the reversed
current field, `nl` counts newlines seen since the last ordinary
character.  A run of two or more newlines is a separator; a single
newline stays in the field. -/
def splitChunksAux (cur : List Char) (nl : Nat) : List Char → List (List Char)
  | [] =>
    if 2 ≤ nl then [cur.reverse, []]
    else [(List.replicate nl '\n' ++ cur).reverse]
  | c :: rest =>
    if c == '\n' then splitChunksAux cur (nl + 1) rest
    else if 2 ≤ nl then cur.reverse :: splitChunksAux [c] 0 rest
    else splitChunksAux (c :: (List.replicate nl '\n' ++ cur)) 0 rest

/-- Embedding of `re.split(r"\n{2,}", script_text)`. -/
def pySplitChunks (script_text : List Char) : List (List Char) :=
  splitChunksAux [] 0 script_text

/-- Record of `openai_utils.SegmentPlan`. -/
structure SegmentPlan where
  title : List Char
  summary : List Char
  script : List Char
  keywords : List (List Char)
deriving DecidableEq, Repr

/-- Chunk list of `build_plans_from_script`:
`[chunk.strip() for chunk in re.split(r"\n{2,}", script_text) if chunk.strip()]`. -/
def pyChunks (script_text : List Char) : List (List Char) :=
  ((pySplitChunks script_text).map stripChars).filter (fun c => !c.isEmpty)

/-- Plan built from one chunk (loop body of `build_plans_from_script`,
with `index` the 1-based chunk position). -/
def mkPlan (index : Nat) (chunk : List Char) : SegmentPlan :=
  let summary := _extract_summary chunk
  { title := _title_from_text summary index
    summary := summary
    script := _clean_sentence chunk
    keywords := _extract_keywords chunk 5 }

/-- Loop of `build_plans_from_script` over `enumerate(chunks, start=1)`. -/
def buildPlansAux (index : Nat) : List (List Char) → List SegmentPlan
  | [] => []
  | chunk :: rest => mkPlan index chunk :: buildPlansAux (index + 1) rest

/-- Embedding of `build_plans_from_script`. -/
def build_plans_from_script (script_text : List Char) : List SegmentPlan :=
  let chunks := pyChunks script_text
  if chunks.isEmpty then [] else buildPlansAux 1 chunks

/-- Record of `project.ProjectSegment`.  File paths are modelled as
strings and the float `duration` as a rational. -/
structure ProjectSegment where
  index : Nat
  title : List Char
  summary : List Char
  script : List Char
  keywords : List (List Char)
  speech_path : List Char
  video_path : Option (List Char)
  duration : ℚ
deriving DecidableEq, Repr

/-- Loop of `create_project_segments` over `enumerate(plans)`: each
iteration reads `speech_paths[index]`, `video_paths[index]` and
`durations[index]`; an out-of-range access is Python's `IndexError`,
modelled as `none`. -/
def cpsAux (speech_paths : List (List Char)) (video_paths : List (Option (List Char)))
    (durations : List ℚ) (index : Nat) :
    List SegmentPlan → Option (List ProjectSegment)
  | [] => some []
  | plan :: rest => do
    let sp ← speech_paths[index]?
    let vp ← video_paths[index]?
    let du ← durations[index]?
    let segs ← cpsAux speech_paths video_paths durations (index + 1) rest
    some ({ index := index, title := plan.title, summary := plan.summary,
            script := plan.script, keywords := plan.keywords,
            speech_path := sp, video_path := vp, duration := du } :: segs)

/-- Embedding of `project.create_project_segments`. -/
def create_project_segments (plans : List SegmentPlan) (speech_paths : List (List Char))
    (video_paths : List (Option (List Char))) (durations : List ℚ) :
    Option (List ProjectSegment) :=
  cpsAux speech_paths video_paths durations 0 plans

/-- Dictionary argument of `SegmentPlan.from_dict`, restricted to the
four keys the method reads: each field is `some v` when the key is
present with value `v` and `none` when the key is absent. -/
structure PlanDict where
  title? : Option (List Char) := none
  summary? : Option (List Char) := none
  script? : Option (List Char) := none
  keywords? : Option (List (List Char)) := none

/-- Embedding of `SegmentPlan.from_dict`: `data.get(key, default)` for
each field, with defaults `"Unnamed"`, `""`, `""` and `[]` (the
`list(...)` copy of the keywords is the identity here). -/
def SegmentPlan.from_dict (data : PlanDict) : SegmentPlan :=
  { title := data.title?.getD ("Unnamed".data)
    summary := data.summary?.getD []
    script := data.script?.getD []
    keywords := data.keywords?.getD [] }

/-- Summary extraction as the SPEC words it (for the C1 refinement
check): try each delimiter independently and keep the smallest found
index.  This definition follows the spec sentence, not the source. -/
def specSummary (text : List Char) : List Char :=
  let cleaned := _clean_sentence text
  let found := [strFind cleaned '.', strFind cleaned '!', strFind cleaned '?'].filterMap id
  match found.min? with
  | some i => cleaned.take (i + 1)
  | none => cleaned.take 200

/-- Variant of `_extract_summary` in which the one slice whose bound
comes from a computed index is guarded: `cleaned[: index + 1]` is taken
only after checking `index < len(cleaned)`, and every other branch is
unchanged.  Used to state that no error branch is reachable. -/
def extractSummaryE (text : List Char) : Except (List Char) (List Char) :=
  let cleaned := _clean_sentence text
  match strFind cleaned '.' with
  | some index =>
    if index < cleaned.length then .ok (cleaned.take (index + 1))
    else .error ("index out of range".data)
  | none =>
    match strFind cleaned '!' with
    | some index =>
      if index < cleaned.length then .ok (cleaned.take (index + 1))
      else .error ("index out of range".data)
    | none =>
      match strFind cleaned '?' with
      | some index =>
        if index < cleaned.length then .ok (cleaned.take (index + 1))
        else .error ("index out of range".data)
      | none => .ok (cleaned.take 200)

/-- Loop of `build_plans_from_script` with the guarded summary
extraction, propagating any error. -/
def buildPlansAuxE (index : Nat) : List (List Char) → Except (List Char) (List SegmentPlan)
  | [] => .ok []
  | chunk :: rest => do
    let summary ← extractSummaryE chunk
    let plans ← buildPlansAuxE (index + 1) rest
    .ok ({ title := _title_from_text summary index, summary := summary,
           script := _clean_sentence chunk, keywords := _extract_keywords chunk 5 } :: plans)

/-- Embedding of `build_plans_from_script` with explicit error
propagation at the guarded operations. -/
def build_plans_from_scriptE (script_text : List Char) : Except (List Char) (List SegmentPlan) :=
  let chunks := pyChunks script_text
  if chunks.isEmpty then .ok [] else buildPlansAuxE 1 chunks

/-! ### Helper lemmas -/

theorem strFind_mem_indexOf (l : List Char) (c : Char) :
    strFind l c = if c ∈ l then some (l.indexOf c) else none := by
  induction l with
  | nil => simp [strFind]
  | cons a rest ih =>
    by_cases h : a = c
    · subst h
      simp [strFind, List.indexOf_cons_self]
    · have hb : (a == c) = false := by simp [h]
      by_cases hc : c ∈ rest
      · simp [strFind, hb, ih, hc, List.indexOf_cons_ne rest h, Ne.symm h]
      · simp [strFind, hb, ih, hc, Ne.symm h]

theorem strFind_lt (l : List Char) (c : Char) (i : Nat) (h : strFind l c = some i) :
    i < l.length := by
  induction l generalizing i with
  | nil => simp [strFind] at h
  | cons a rest ih =>
    simp only [strFind] at h
    by_cases hb : (a == c) = true
    · rw [if_pos hb] at h
      cases h
      simp
    · rw [if_neg hb] at h
      rcases Option.map_eq_some'.mp h with ⟨j, hj, rfl⟩
      have := ih j hj
      simp
      omega

theorem take_take_len {α : Type} (l : List α) (k : Nat) :
    l.take ((l.take k).length) = l.take k := by
  rw [List.length_take]
  rcases le_total k l.length with h | h
  · rw [Nat.min_eq_left h]
  · rw [Nat.min_eq_right h, List.take_length, List.take_of_length_le h]

theorem summary_shape (chunk : List Char) :
    ∃ k, _extract_summary chunk = (_clean_sentence chunk).take k := by
  cases h1 : strFind (_clean_sentence chunk) '.' with
  | some i => exact ⟨i + 1, by simp [_extract_summary, h1]⟩
  | none =>
    cases h2 : strFind (_clean_sentence chunk) '!' with
    | some i => exact ⟨i + 1, by simp [_extract_summary, h1, h2]⟩
    | none =>
      cases h3 : strFind (_clean_sentence chunk) '?' with
      | some i => exact ⟨i + 1, by simp [_extract_summary, h1, h2, h3]⟩
      | none => exact ⟨200, by simp [_extract_summary, h1, h2, h3]⟩

theorem mem_buildPlansAux (p : SegmentPlan) :
    ∀ (cs : List (List Char)) (i : Nat), p ∈ buildPlansAux i cs →
      ∃ j chunk, chunk ∈ cs ∧ p = mkPlan j chunk := by
  intro cs
  induction cs with
  | nil => intro i h; simp [buildPlansAux] at h
  | cons chunk rest ih =>
    intro i h
    rcases List.mem_cons.mp h with rfl | h
    · exact ⟨i, chunk, List.mem_cons_self _ _, rfl⟩
    · obtain ⟨j, c, hc, hp⟩ := ih (i + 1) h
      exact ⟨j, c, List.mem_cons_of_mem _ hc, hp⟩

theorem mem_build_plans {p : SegmentPlan} {s : List Char}
    (hp : p ∈ build_plans_from_script s) :
    ∃ j chunk, chunk ∈ pyChunks s ∧ p = mkPlan j chunk := by
  unfold build_plans_from_script at hp
  by_cases he : (pyChunks s).isEmpty
  · rw [if_pos he] at hp
    simp at hp
  · rw [if_neg he] at hp
    exact mem_buildPlansAux p _ 1 hp

theorem firstSeenAux_mem :
    ∀ (l seen : List (List Char)) (w : List Char),
      w ∈ firstSeenAux seen l → w ∈ l ∧ w ∉ seen := by
  intro l
  induction l with
  | nil => intro seen w h; simp [firstSeenAux] at h
  | cons a rest ih =>
    intro seen w h
    simp only [firstSeenAux] at h
    by_cases ha : a ∈ seen
    · rw [if_pos ha] at h
      obtain ⟨h1, h2⟩ := ih seen w h
      exact ⟨List.mem_cons_of_mem _ h1, h2⟩
    · rw [if_neg ha] at h
      rcases List.mem_cons.mp h with rfl | h
      · exact ⟨List.mem_cons_self _ _, ha⟩
      · obtain ⟨h1, h2⟩ := ih _ w h
        exact ⟨List.mem_cons_of_mem _ h1, fun hw => h2 (List.mem_cons_of_mem _ hw)⟩

/-- Index of the first occurrence of the word `w` in the token list `l`
(the first-appearance position used by the tie-break). -/
def firstIdx (l : List (List Char)) (w : List Char) : Nat :=
  match l with
  | [] => 0
  | a :: rest => if a = w then 0 else firstIdx rest w + 1

theorem firstSeenAux_pairwise :
    ∀ (l seen : List (List Char)),
      (firstSeenAux seen l).Pairwise (fun u v => firstIdx l u < firstIdx l v) := by
  intro l
  induction l with
  | nil => intro seen; simp [firstSeenAux]
  | cons a rest ih =>
    intro seen
    simp only [firstSeenAux]
    by_cases ha : a ∈ seen
    · rw [if_pos ha]
      refine (ih seen).imp_of_mem ?_
      intro u v hu hv hlt
      have hu' := firstSeenAux_mem rest seen u hu
      have hv' := firstSeenAux_mem rest seen v hv
      have hua : a ≠ u := fun h => hu'.2 (h ▸ ha)
      have hva : a ≠ v := fun h => hv'.2 (h ▸ ha)
      simp only [firstIdx, if_neg hua, if_neg hva]
      omega
    · rw [if_neg ha]
      constructor
      · intro v hv
        have hv' := firstSeenAux_mem rest (a :: seen) v hv
        have hva : a ≠ v := fun h => hv'.2 (h ▸ List.mem_cons_self a seen)
        simp only [firstIdx, if_neg hva]
        simp
      · refine (ih (a :: seen)).imp_of_mem ?_
        intro u v hu hv hlt
        have hu' := firstSeenAux_mem rest (a :: seen) u hu
        have hv' := firstSeenAux_mem rest (a :: seen) v hv
        have hua : a ≠ u := fun h => hu'.2 (h ▸ List.mem_cons_self a seen)
        have hva : a ≠ v := fun h => hv'.2 (h ▸ List.mem_cons_self a seen)
        simp only [firstIdx, if_neg hua, if_neg hva]
        omega

theorem mem_countPairs {q : List Char × Nat} {l : List (List Char)}
    (h : q ∈ countPairs l) : q.2 = l.count q.1 ∧ q.1 ∈ l := by
  obtain ⟨w, hw, rfl⟩ := List.mem_map.mp h
  exact ⟨rfl, (firstSeenAux_mem l [] w hw).1⟩

theorem countPairs_pairwise (l : List (List Char)) :
    (countPairs l).Pairwise (fun q r => firstIdx l q.1 < firstIdx l r.1) := by
  unfold countPairs counterKeys
  exact List.pairwise_map.mpr (firstSeenAux_pairwise l [])

theorem mem_insertDesc (p q : List Char × Nat) :
    ∀ l : List (List Char × Nat), q ∈ insertDesc p l ↔ q = p ∨ q ∈ l := by
  intro l
  induction l with
  | nil => simp [insertDesc]
  | cons r rest ih =>
    simp only [insertDesc]
    by_cases h : r.2 ≤ p.2
    · rw [if_pos h]
      simp [List.mem_cons]
    · rw [if_neg h]
      simp only [List.mem_cons, ih]
      tauto

theorem mem_sortByCountDesc (q : List Char × Nat) :
    ∀ l : List (List Char × Nat), q ∈ sortByCountDesc l ↔ q ∈ l := by
  intro l
  induction l with
  | nil => simp [sortByCountDesc]
  | cons p rest ih =>
    simp only [sortByCountDesc, mem_insertDesc, ih, List.mem_cons]

theorem insertDesc_pairwise (FO : List Char → List Char → Prop)
    (p : List Char × Nat) :
    ∀ l : List (List Char × Nat),
      l.Pairwise (fun q r => r.2 < q.2 ∨ (q.2 = r.2 ∧ FO q.1 r.1)) →
      (∀ q ∈ l, FO p.1 q.1) →
      (insertDesc p l).Pairwise (fun q r => r.2 < q.2 ∨ (q.2 = r.2 ∧ FO q.1 r.1)) := by
  intro l
  induction l with
  | nil => intro _ _; simp [insertDesc]
  | cons q rest ih =>
    intro hl hp
    rcases List.pairwise_cons.mp hl with ⟨hq, hrest⟩
    simp only [insertDesc]
    by_cases hle : q.2 ≤ p.2
    · rw [if_pos hle]
      constructor
      · intro r hr
        rcases List.mem_cons.mp hr with rfl | hr
        · rcases Nat.lt_or_ge r.2 p.2 with hlt | hge
          · exact Or.inl hlt
          · exact Or.inr ⟨by omega, hp r (List.mem_cons_self _ _)⟩
        · have hqr := hq r hr
          rcases Nat.lt_or_ge r.2 p.2 with h2 | h2
          · exact Or.inl h2
          · have : r.2 ≤ q.2 := by rcases hqr with hlt | ⟨heq, _⟩ <;> omega
            exact Or.inr ⟨by omega, hp r (List.mem_cons_of_mem _ hr)⟩
      · exact hl
    · rw [if_neg hle]
      have hpq : p.2 < q.2 := Nat.lt_of_not_le hle
      constructor
      · intro r hr
        rcases (mem_insertDesc p r rest).mp hr with rfl | hr
        · exact Or.inl hpq
        · exact hq r hr
      · exact ih hrest (fun r hr => hp r (List.mem_cons_of_mem _ hr))

theorem sortByCountDesc_pairwise (FO : List Char → List Char → Prop) :
    ∀ l : List (List Char × Nat),
      l.Pairwise (fun q r => FO q.1 r.1) →
      (sortByCountDesc l).Pairwise (fun q r => r.2 < q.2 ∨ (q.2 = r.2 ∧ FO q.1 r.1)) := by
  intro l
  induction l with
  | nil => intro _; simp [sortByCountDesc]
  | cons p rest ih =>
    intro hl
    rcases List.pairwise_cons.mp hl with ⟨hp, hrest⟩
    exact insertDesc_pairwise FO p _ (ih hrest)
      (fun q hq => hp q ((mem_sortByCountDesc q rest).mp hq))

theorem runs_chars (p : Char → Bool) :
    ∀ (l cur : List Char), (∀ c ∈ cur, p c = true) →
      ∀ w ∈ runsAux p cur l, ∀ c ∈ w, p c = true := by
  intro l
  induction l with
  | nil =>
    intro cur hcur w hw c hc
    simp only [runsAux] at hw
    by_cases he : cur.isEmpty
    · rw [if_pos he] at hw; simp at hw
    · rw [if_neg he] at hw
      rcases List.mem_singleton.mp hw with rfl
      exact hcur c (List.mem_reverse.mp hc)
  | cons a rest ih =>
    intro cur hcur w hw c hc
    simp only [runsAux] at hw
    by_cases hp : p a
    · rw [if_pos hp] at hw
      refine ih (a :: cur) ?_ w hw c hc
      intro d hd
      rcases List.mem_cons.mp hd with rfl | hd
      · exact hp
      · exact hcur d hd
    · rw [if_neg hp] at hw
      by_cases he : cur.isEmpty
      · rw [if_pos he] at hw
        exact ih [] (by simp) w hw c hc
      · rw [if_neg he] at hw
        rcases List.mem_cons.mp hw with rfl | hw
        · exact hcur c (List.mem_reverse.mp hc)
        · exact ih [] (by simp) w hw c hc

theorem runs_chars_subset (p : Char → Bool) :
    ∀ (l cur : List Char), ∀ w ∈ runsAux p cur l, ∀ c ∈ w, c ∈ cur ∨ c ∈ l := by
  intro l
  induction l with
  | nil =>
    intro cur w hw c hc
    simp only [runsAux] at hw
    by_cases he : cur.isEmpty
    · rw [if_pos he] at hw; simp at hw
    · rw [if_neg he] at hw
      rcases List.mem_singleton.mp hw with rfl
      exact Or.inl (List.mem_reverse.mp hc)
  | cons a rest ih =>
    intro cur w hw c hc
    simp only [runsAux] at hw
    by_cases hp : p a
    · rw [if_pos hp] at hw
      rcases ih (a :: cur) w hw c hc with h | h
      · rcases List.mem_cons.mp h with rfl | h
        · exact Or.inr (List.mem_cons_self _ _)
        · exact Or.inl h
      · exact Or.inr (List.mem_cons_of_mem _ h)
    · rw [if_neg hp] at hw
      by_cases he : cur.isEmpty
      · rw [if_pos he] at hw
        rcases ih [] w hw c hc with h | h
        · simp at h
        · exact Or.inr (List.mem_cons_of_mem _ h)
      · rw [if_neg he] at hw
        rcases List.mem_cons.mp hw with rfl | hw
        · exact Or.inl (List.mem_reverse.mp hc)
        · rcases ih [] w hw c hc with h | h
          · simp at h
          · exact Or.inr (List.mem_cons_of_mem _ h)

theorem shift_not_upper :
    ∀ n < 91, 65 ≤ n → isUpperChar (Char.ofNat (n + 32)) = false := by decide

theorem pyLowerChar_not_upper (c : Char) :
    ∀ d ∈ pyLowerChar c, isUpperChar d = false := by
  intro d hd
  unfold pyLowerChar at hd
  split_ifs at hd with h1 h2 h3 h4 h5 h6 h7
  · rcases List.mem_cons.mp hd with rfl | hd
    · decide
    · rcases List.mem_singleton.mp hd with rfl
      decide
  · rcases List.mem_singleton.mp hd with rfl
    simp only [Bool.and_eq_true, decide_eq_true_eq] at h2
    exact shift_not_upper c.toNat (by omega) h2.1
  · rcases List.mem_singleton.mp hd with rfl; decide
  · rcases List.mem_singleton.mp hd with rfl; decide
  · rcases List.mem_singleton.mp hd with rfl; decide
  · rcases List.mem_singleton.mp hd with rfl; decide
  · rcases List.mem_singleton.mp hd with rfl; decide
  · rcases List.mem_singleton.mp hd with rfl
    simp only [Bool.not_eq_true] at h1 h2 h3 h4 h5 h6 h7
    simp [isUpperChar, h1, h2, h3, h4, h5, h6, h7]

theorem pyLower_not_upper :
    ∀ (l : List Char), ∀ d ∈ pyLower l, isUpperChar d = false := by
  intro l
  induction l with
  | nil => intro d hd; simp [pyLower] at hd
  | cons c rest ih =>
    intro d hd
    simp only [pyLower] at hd
    rcases List.mem_append.mp hd with h | h
    · exact pyLowerChar_not_upper c d h
    · exact ih d h

theorem keywords_mem_candidates {text : List Char} {w : List Char}
    (h : w ∈ _extract_keywords text 5) : w ∈ _keyword_candidates text := by
  unfold _extract_keywords at h
  by_cases he : (_keyword_candidates text).isEmpty
  · rw [if_pos he] at h
    simp at h
  · rw [if_neg he] at h
    obtain ⟨q, hq, rfl⟩ := List.mem_map.mp h
    have hq' : q ∈ sortByCountDesc (countPairs (_keyword_candidates text)) :=
      (List.take_sublist 5 _).subset hq
    have hq'' := (mem_sortByCountDesc q _).mp hq'
    exact (mem_countPairs hq'').2

theorem cpsAux_isSome (sp : List (List Char)) (vp : List (Option (List Char))) (du : List ℚ) :
    ∀ (plans : List SegmentPlan) (i : Nat),
      (cpsAux sp vp du i plans).isSome = true ↔
        ∀ j < plans.length, i + j < sp.length ∧ i + j < vp.length ∧ i + j < du.length := by
  intro plans
  induction plans with
  | nil => intro i; simp [cpsAux]
  | cons plan rest ih =>
    intro i
    constructor
    · intro h j hj
      simp only [cpsAux] at h
      cases hsp : sp[i]? with
      | none => rw [hsp] at h; simp at h
      | some spv =>
        rw [hsp] at h
        cases hvp : vp[i]? with
        | none => rw [hvp] at h; simp at h
        | some vpv =>
          rw [hvp] at h
          cases hdu : du[i]? with
          | none => rw [hdu] at h; simp at h
          | some duv =>
            rw [hdu] at h
            cases hrest : cpsAux sp vp du (i + 1) rest with
            | none => rw [hrest] at h; simp at h
            | some segs =>
              have hs := (List.getElem?_eq_some_iff.mp hsp).1
              have hv := (List.getElem?_eq_some_iff.mp hvp).1
              have hd := (List.getElem?_eq_some_iff.mp hdu).1
              cases j with
              | zero => exact ⟨by omega, by omega, by omega⟩
              | succ k =>
                have hk := (ih (i + 1)).mp (by rw [hrest]; rfl) k (by simp at hj; omega)
                exact ⟨by omega, by omega, by omega⟩
    · intro h
      obtain ⟨ha0, hb0, hc0⟩ := h 0 (by simp)
      have hsp := List.getElem?_eq_getElem (l := sp) (n := i) (by omega)
      have hvp := List.getElem?_eq_getElem (l := vp) (n := i) (by omega)
      have hdu := List.getElem?_eq_getElem (l := du) (n := i) (by omega)
      have hrest : (cpsAux sp vp du (i + 1) rest).isSome = true :=
        (ih (i + 1)).mpr (fun j hj => by
          obtain ⟨a, b, c⟩ := h (j + 1) (by simp; omega)
          exact ⟨by omega, by omega, by omega⟩)
      obtain ⟨segs, hsegs⟩ := Option.isSome_iff_exists.mp hrest
      simp only [cpsAux]
      rw [hsp, hvp, hdu, hsegs]
      rfl

theorem extractSummaryE_ok (chunk : List Char) :
    extractSummaryE chunk = Except.ok (_extract_summary chunk) := by
  cases h1 : strFind (_clean_sentence chunk) '.' with
  | some i => simp [extractSummaryE, _extract_summary, h1, strFind_lt _ _ _ h1]
  | none =>
    cases h2 : strFind (_clean_sentence chunk) '!' with
    | some i => simp [extractSummaryE, _extract_summary, h1, h2, strFind_lt _ _ _ h2]
    | none =>
      cases h3 : strFind (_clean_sentence chunk) '?' with
      | some i => simp [extractSummaryE, _extract_summary, h1, h2, h3, strFind_lt _ _ _ h3]
      | none => simp [extractSummaryE, _extract_summary, h1, h2, h3]

theorem buildPlansAuxE_ok :
    ∀ (cs : List (List Char)) (i : Nat),
      buildPlansAuxE i cs = Except.ok (buildPlansAux i cs) := by
  intro cs
  induction cs with
  | nil => intro i; simp [buildPlansAuxE, buildPlansAux]
  | cons chunk rest ih =>
    intro i
    simp only [buildPlansAuxE, buildPlansAux, extractSummaryE_ok, ih, mkPlan]
    rfl

theorem buildPlansAux_map_keywords :
    ∀ (cs : List (List Char)) (i : Nat),
      (buildPlansAux i cs).map SegmentPlan.keywords
        = cs.map (fun c => _extract_keywords c 5) := by
  intro cs
  induction cs with
  | nil => intro i; simp [buildPlansAux]
  | cons chunk rest ih => intro i; simp [buildPlansAux, mkPlan, ih]

theorem extract_keywords_pairwise (text : List Char) :
    (_extract_keywords text 5).Pairwise (fun u v =>
      (_keyword_candidates text).count v < (_keyword_candidates text).count u ∨
      ((_keyword_candidates text).count u = (_keyword_candidates text).count v ∧
        firstIdx (_keyword_candidates text) u < firstIdx (_keyword_candidates text) v)) := by
  unfold _extract_keywords
  by_cases he : (_keyword_candidates text).isEmpty
  · rw [if_pos he]
    exact List.Pairwise.nil
  · rw [if_neg he]
    have h1 := sortByCountDesc_pairwise
      (fun u v => firstIdx (_keyword_candidates text) u < firstIdx (_keyword_candidates text) v)
      (countPairs (_keyword_candidates text)) (countPairs_pairwise _)
    have h2 := List.Pairwise.sublist (List.take_sublist 5 _) h1
    have h3 : ((sortByCountDesc (countPairs (_keyword_candidates text))).take 5).Pairwise
        (fun q r => (_keyword_candidates text).count r.1 < (_keyword_candidates text).count q.1 ∨
          ((_keyword_candidates text).count q.1 = (_keyword_candidates text).count r.1 ∧
            firstIdx (_keyword_candidates text) q.1 < firstIdx (_keyword_candidates text) r.1)) := by
      refine h2.imp_of_mem ?_
      intro q r hq hr hqr
      have hq' := mem_countPairs ((mem_sortByCountDesc q _).mp ((List.take_sublist 5 _).subset hq))
      have hr' := mem_countPairs ((mem_sortByCountDesc r _).mp ((List.take_sublist 5 _).subset hr))
      rw [← hq'.1, ← hr'.1]
      exact hqr
    unfold most_common
    exact List.pairwise_map.mpr h3

/-! ### Claims -/

/-- C1, counterexample: for the chunk `"Hi! Bye."` the code returns the
whole string (the first `.` wins, although `!` occurs earlier), while the
claimed smallest-index rule would return `"Hi!"`; so the claim as stated
is false. -/
theorem C1_cex :
    (build_plans_from_script ("Hi! Bye.".data)).map SegmentPlan.summary
        = [("Hi! Bye.".data)] ∧
    specSummary ("Hi! Bye.".data) = ("Hi!".data) ∧
    ("Hi! Bye.".data) ≠ ("Hi!".data) := by
  refine ⟨by decide, by decide, by decide⟩

/-- C1, amended: the summary is the prefix of the normalized chunk up to
and including the first `.` when a `.` occurs anywhere; otherwise up to
the first `!` when one occurs; otherwise up to the first `?`; and only
when none of the three occurs is it the first 200 characters.  The
delimiters are tried in the fixed priority order `.`, `!`, `?`, not by
smallest index. -/
theorem C1_thm (text : List Char) :
    _extract_summary text =
      (if '.' ∈ _clean_sentence text then
        (_clean_sentence text).take ((_clean_sentence text).indexOf '.' + 1)
      else if '!' ∈ _clean_sentence text then
        (_clean_sentence text).take ((_clean_sentence text).indexOf '!' + 1)
      else if '?' ∈ _clean_sentence text then
        (_clean_sentence text).take ((_clean_sentence text).indexOf '?' + 1)
      else (_clean_sentence text).take 200) := by
  by_cases h1 : '.' ∈ _clean_sentence text <;>
    by_cases h2 : '!' ∈ _clean_sentence text <;>
      by_cases h3 : '?' ∈ _clean_sentence text <;>
        simp [_extract_summary, strFind_mem_indexOf, h1, h2, h3]

/-- C2, counterexample: with an empty plan list and singleton path and
duration lists the sequences have unequal lengths, yet the call returns
a result (the empty segment list) instead of failing. -/
theorem C2_cex :
    create_project_segments [] ["a".data] [none] [(0 : ℚ)] = some [] ∧
    ([] : List SegmentPlan).length ≠ ["a".data].length := by
  exact ⟨rfl, by decide⟩

/-- C2, amended: the call fails (raises `IndexError`, modelled `none`)
exactly when one of the speech-path, video-path or duration sequences is
shorter than the plan sequence; when all three are at least as long as
the plans the call returns segments, ignoring any extra entries, so
unequal lengths alone do not make it fail. -/
theorem C2_thm (plans : List SegmentPlan) (sp : List (List Char))
    (vp : List (Option (List Char))) (du : List ℚ) :
    (create_project_segments plans sp vp du).isSome = true ↔
      plans.length ≤ sp.length ∧ plans.length ≤ vp.length ∧ plans.length ≤ du.length := by
  rw [create_project_segments, cpsAux_isSome]
  constructor
  · intro h
    rcases Nat.eq_zero_or_pos plans.length with h0 | h0
    · omega
    · obtain ⟨a, b, c⟩ := h (plans.length - 1) (by omega)
      omega
  · intro h j hj
    omega

/-- C3, counterexample: for the input `". . ."` the first plan's title
is `"."`, not `"Segment 1"`: the summary is `"."` (prefix up to the
first `.`), which is nonempty, so the fallback never fires. -/
theorem C3_cex :
    (build_plans_from_script (". . .".data)).map SegmentPlan.title ≠ ["Segment 1".data] := by
  decide

/-- C3, amended: for the input chunk `". . ."` the summary is `"."` and
the derived title is `"."` — the nonempty summary keeps the `"Segment 1"`
fallback from triggering. -/
theorem C3_thm :
    (build_plans_from_script (". . .".data)).map SegmentPlan.summary = [".".data] ∧
    (build_plans_from_script (". . .".data)).map SegmentPlan.title = [".".data] := by
  exact ⟨by decide, by decide⟩

/-- C4: the keyword sequence has at most 5 entries, is duplicate-free,
every keyword is longer than 2 characters, not a stopword and one of the
chunk's word tokens, its count among the surviving tokens equals its
count among all word tokens of the chunk, the sequence is ordered by
descending count with ties broken by first appearance, and it is empty
when no token survives filtering. -/
theorem C4_thm (text : List Char) :
    (_extract_keywords text 5).length ≤ 5 ∧
    (_extract_keywords text 5).Nodup ∧
    (∀ w ∈ _extract_keywords text 5,
      2 < w.length ∧ w ∉ _STOPWORDS ∧ w ∈ _keyword_candidates text ∧
      (findWords (pyLower text)).count w = (_keyword_candidates text).count w) ∧
    (_extract_keywords text 5).Pairwise (fun u v =>
      (_keyword_candidates text).count v < (_keyword_candidates text).count u ∨
      ((_keyword_candidates text).count u = (_keyword_candidates text).count v ∧
        firstIdx (_keyword_candidates text) u < firstIdx (_keyword_candidates text) v)) ∧
    (_keyword_candidates text = [] → _extract_keywords text 5 = []) := by
  refine ⟨?_, ?_, ?_, extract_keywords_pairwise text, ?_⟩
  · unfold _extract_keywords
    by_cases he : (_keyword_candidates text).isEmpty
    · rw [if_pos he]; simp
    · rw [if_neg he]
      simp [most_common, List.length_take]
  · refine (extract_keywords_pairwise text).imp ?_
    intro a b hab heq
    subst heq
    rcases hab with h | ⟨h1, h2⟩ <;> omega
  · intro w hw
    have hc := keywords_mem_candidates hw
    have hf := List.mem_filter.mp (by unfold _keyword_candidates at hc; exact hc)
    have hp := hf.2
    simp only [Bool.and_eq_true, decide_eq_true_eq, Bool.not_eq_true'] at hp
    have hns : w ∉ _STOPWORDS := by
      intro hmem
      have : _STOPWORDS.contains w = true := List.contains_iff_exists_mem_beq.mpr
        ⟨w, hmem, by simp⟩
      rw [this] at hp
      exact absurd hp.2 (by simp)
    refine ⟨hp.1, hns, hc, ?_⟩
    unfold _keyword_candidates
    rw [List.count_filter]
    simp only [Bool.and_eq_true, decide_eq_true_eq, Bool.not_eq_true']
    exact ⟨hp.1, hp.2⟩
  · intro h
    simp [_extract_keywords, h]

/-- C4, witness: for the chunk `"video cat video"` the theorem applies
at the keyword `"video"`, which is longer than 2 characters, not a
stopword, and a surviving token. -/
theorem C4_witness :
    2 < ("video".data).length ∧ ("video".data) ∉ _STOPWORDS ∧
      ("video".data) ∈ _keyword_candidates ("video cat video".data) ∧
      (findWords (pyLower ("video cat video".data))).count ("video".data)
        = (_keyword_candidates ("video cat video".data)).count ("video".data) :=
  (C4_thm ("video cat video".data)).2.2.1 ("video".data) (by decide)

/-- C5: the segmenter is total — the variant with explicit error
propagation at every guarded operation never takes an error branch and
agrees with the plain function on every input string. -/
theorem C5_thm (s : List Char) :
    build_plans_from_scriptE s = Except.ok (build_plans_from_script s) := by
  unfold build_plans_from_scriptE build_plans_from_script
  by_cases he : (pyChunks s).isEmpty
  · rw [if_pos he, if_pos he]
  · rw [if_neg he, if_neg he]
    exact buildPlansAuxE_ok _ 1

/-- C6: the segmenter maps the empty string and the whitespace-only
string `"   "` to the empty plan sequence. -/
theorem C6_thm :
    build_plans_from_script ("".data) = [] ∧
    build_plans_from_script ("   ".data) = [] := by
  exact ⟨by decide, by decide⟩

/-- C7: the segmenter is deterministic — two runs on equal input strings
return equal plan sequences (the embedding is a pure function, so equal
inputs give identical outputs, every field included). -/
theorem C7_thm (s₁ s₂ : List Char) (h : s₁ = s₂) :
    build_plans_from_script s₁ = build_plans_from_script s₂ := by
  rw [h]

/-- C7, witness: the theorem applied to two copies of a concrete
input. -/
theorem C7_witness :
    build_plans_from_script ("Hello world.".data)
      = build_plans_from_script ("Hello world.".data) :=
  C7_thm ("Hello world.".data) ("Hello world.".data) rfl

/-- C8: every plan's summary is an initial segment of its script — both
are derived from the same normalized chunk and the summary is a `take`
of it, so taking the summary's length from the script gives back the
summary. -/
theorem C8_thm (s : List Char) (p : SegmentPlan) (hp : p ∈ build_plans_from_script s) :
    p.script.take p.summary.length = p.summary := by
  obtain ⟨j, chunk, hc, rfl⟩ := mem_build_plans hp
  obtain ⟨k, hk⟩ := summary_shape chunk
  simp [mkPlan, hk, take_take_len]

/-- C8, witness: the theorem applied to the single plan produced from
`"Hello world. Bye."`. -/
theorem C8_witness :
    (mkPlan 1 ("Hello world. Bye.".data)).script.take
        (mkPlan 1 ("Hello world. Bye.".data)).summary.length
      = (mkPlan 1 ("Hello world. Bye.".data)).summary :=
  C8_thm ("Hello world. Bye.".data) (mkPlan 1 ("Hello world. Bye.".data)) (by decide)

/-- C9: plan keywords are exactly the keyword extraction of the plan's
chunk, and every keyword is one of the maximal word-character runs of
the lowercased chunk, all of its characters are word characters, and
none is an uppercase letter. -/
theorem C9_thm (s : List Char) :
    (build_plans_from_script s).map SegmentPlan.keywords
        = (pyChunks s).map (fun chunk => _extract_keywords chunk 5) ∧
    ∀ chunk ∈ pyChunks s, ∀ kw ∈ _extract_keywords chunk 5,
      kw ∈ findWords (pyLower chunk) ∧
      ∀ c ∈ kw, isWordChar c = true ∧ isUpperChar c = false := by
  constructor
  · unfold build_plans_from_script
    by_cases he : (pyChunks s).isEmpty
    · rw [if_pos he]
      rw [List.isEmpty_iff.mp he]
      simp
    · rw [if_neg he]
      exact buildPlansAux_map_keywords _ 1
  · intro chunk _ kw hkw
    have hc := keywords_mem_candidates hkw
    have hf := List.mem_filter.mp (by unfold _keyword_candidates at hc; exact hc)
    refine ⟨hf.1, ?_⟩
    intro c hc'
    constructor
    · exact runs_chars isWordChar (pyLower chunk) [] (by simp) kw hf.1 c hc'
    · rcases runs_chars_subset isWordChar (pyLower chunk) [] kw hf.1 c hc' with h | h
      · simp at h
      · exact pyLower_not_upper chunk c h

/-- C9, witness: for the chunk `"Hello World."` the keyword `"hello"`
is one of the word runs of the lowercased chunk. -/
theorem C9_witness :
    ("hello".data) ∈ findWords (pyLower ("Hello World.".data)) :=
  (((C9_thm ("Hello World.".data)).2 ("Hello World.".data) (by decide))
    ("hello".data) (by decide)).1

/-- C10: `SegmentPlan.from_dict` substitutes the documented default for
each absent key — `"Unnamed"`, `""`, `""`, `[]` — and in particular the
all-absent dictionary yields a plan whose script is empty. -/
theorem C10_thm (d : PlanDict) :
    (d.title? = none → (SegmentPlan.from_dict d).title = ("Unnamed".data)) ∧
    (d.summary? = none → (SegmentPlan.from_dict d).summary = []) ∧
    (d.script? = none → (SegmentPlan.from_dict d).script = []) ∧
    (d.keywords? = none → (SegmentPlan.from_dict d).keywords = []) := by
  refine ⟨?_, ?_, ?_, ?_⟩ <;> intro h <;> simp [SegmentPlan.from_dict, h]

/-- C10, witness: the theorem applied to the dictionary with all four
keys absent — the resulting plan has the default title and an empty
script. -/
theorem C10_witness :
    (SegmentPlan.from_dict {}).title = ("Unnamed".data) :=
  (C10_thm {}).1 rfl

end VideoGen
